import Mathlib

/-!
Verification of the gocmt comment-synthesis engine (`parse.go`).

The engine parses one Go source file, walks its declarations, synthesizes or
repairs doc comments for exported declarations from a template, projects the
comment map back onto the tree, and reports whether the file's comment text
changed.

Strings are modelled as `List Char` (Go strings are byte sequences; all inputs
of interest are ASCII).  The Go AST fragments the engine inspects are modelled
by explicit structures; node identity (Go pointer identity, used as the key of
the `skipped` map) is modelled by a numeric `id` field.  Runtime panics that
the traversal can actually reach (out-of-range indexing into `Specs`/`Names`,
failing type assertions) are modelled by `Option`: `none` is a panic.
-/

namespace Gocmt

/-- Go strings, modelled as lists of characters. -/
abbrev GoString := List Char

/-- Model of Go `unicode.IsSpace` restricted to ASCII (the whitespace set used
by `strings.TrimSpace` and `strings.Fields`). -/
def isSpaceGo (c : Char) : Bool :=
  c = ' ' || c = '\t' || c = '\n' || c = '\r' || c = '\x0b' || c = '\x0c'

/-- Model of `go/ast.isWhitespace` (the byte set stripped from the end of each
comment line by `CommentGroup.Text`). -/
def isWSByte (c : Char) : Bool :=
  c = ' ' || c = '\t' || c = '\n' || c = '\r'

/-- Model of `go/ast.stripTrailingWhitespace`. -/
def stripTrailingWS (s : GoString) : GoString :=
  (s.reverse.dropWhile isWSByte).reverse

/-- Model of Go `strings.TrimSpace` (ASCII). -/
def trimGo (s : GoString) : GoString :=
  ((s.dropWhile isSpaceGo).reverse.dropWhile isSpaceGo).reverse

/-- Model of Go `strings.HasPrefix`. -/
def hasPrefixGo (s p : GoString) : Bool :=
  p.isPrefixOf s

/-- Model of Go `strings.TrimPrefix`. -/
def trimPrefixGo (s p : GoString) : GoString :=
  if p.isPrefixOf s then s.drop p.length else s

/-- Splits a string at newline characters; helper for the model of
`strings.Split(c, "\n")`.  The accumulator holds the current line reversed. -/
def splitNLAux : GoString → GoString → List GoString
  | [], cur => [cur.reverse]
  | c :: rest, cur =>
    if c = '\n' then cur.reverse :: splitNLAux rest []
    else splitNLAux rest (c :: cur)

/-- Model of Go `strings.Split(s, "\n")`. -/
def splitNL (s : GoString) : List GoString :=
  splitNLAux s []

/-- Helper for the model of `strings.Fields`; the accumulator holds the current
word reversed. -/
def fieldsAux : GoString → GoString → List GoString
  | [], cur => if cur = [] then [] else [cur.reverse]
  | c :: rest, cur =>
    if isSpaceGo c then
      if cur = [] then fieldsAux rest [] else cur.reverse :: fieldsAux rest []
    else fieldsAux rest (c :: cur)

/-- Model of Go `strings.Fields` (split around runs of whitespace). -/
def fieldsGo (s : GoString) : List GoString :=
  fieldsAux s []

/-- Model of `fmt.Sprintf(pattern, arg)` for a pattern containing the single
verb `%s` (the only use the engine makes of `fmt`). -/
def sprintf1 : GoString → GoString → GoString
  | [], _ => []
  | '%' :: 's' :: rest, arg => arg ++ rest
  | c :: rest, arg => c :: sprintf1 rest arg

/-- Model of `fmt.Sprintf(pattern, a, b)` for a pattern containing exactly the
verbs `%s%s` in order (used by `modifyComment`'s rewrite branch). -/
def sprintf2 : GoString → GoString → GoString → GoString
  | [], _, _ => []
  | '%' :: 's' :: rest, a, b => a ++ sprintf1 rest b
  | c :: rest, a, b => c :: sprintf2 rest a b

/-- Model of Go `strings.Replace(s, old, new, 1)` for a non-empty `old`
(the engine only replaces the constant `commentBase`). -/
def replaceFirstGo (old new : GoString) : GoString → GoString
  | [] => []
  | c :: rest =>
    if old.isPrefixOf (c :: rest) then new ++ (c :: rest).drop old.length
    else c :: replaceFirstGo old new rest

/-- Characters allowed before the colon of a Go comment directive. -/
def isDirChar (c : Char) : Bool :=
  ('a' ≤ c && c ≤ 'z') || ('0' ≤ c && c ≤ '9')

/-- Model of `go/ast.isDirective`: the text after `//` of a line comment that
is a tool directive (dropped by `CommentGroup.Text`). -/
def isDirective (c : GoString) : Bool :=
  if hasPrefixGo c ("line ".data) then true
  else
    match c.findIdx? (fun x => x = ':') with
    | none => false
    | some k =>
      if k = 0 || c.length ≤ k + 1 then false
      else
        (c.take k).all isDirChar &&
          (match c.get? (k + 1) with
           | some b => isDirChar b
           | none => false)

/-- One comment of a comment group: its position (`Slash`) and raw text
including the delimiters, as in `go/ast.Comment`. -/
structure Comment where
  slash : Int
  text : GoString
deriving DecidableEq

/-- A comment group, as in `go/ast.CommentGroup`.  Groups attached to real
parsed files always have a non-empty `list`. -/
structure CommentGroup where
  list : List Comment
deriving DecidableEq

/-- Model of `CommentGroup.Pos()`: the position of the first comment.  Real
groups are non-empty; the `[]` case (0) is unreachable on parsed trees (Go
would panic there). -/
def groupPos (g : CommentGroup) : Int :=
  match g.list with
  | [] => 0
  | c :: _ => c.slash

/-- The lines one comment contributes to `CommentGroup.Text()`, following the
`go/ast` source: strip `//` (and one following space) or `/* */`, drop
directives, split at newlines, strip trailing whitespace of every line.
Comments in parsed files always have at least the two delimiter characters;
the final catch-all case is unreachable for them. -/
def commentContrib (text : GoString) : List GoString :=
  match text with
  | _ :: '/' :: _ =>
    let c := text.drop 2
    if c = [] then [[]]
    else if c.head? = some ' ' then (splitNL (c.drop 1)).map stripTrailingWS
    else if isDirective c then []
    else (splitNL c).map stripTrailingWS
  | _ :: '*' :: _ =>
    let c := (text.drop 2).take (text.length - 4)
    (splitNL c).map stripTrailingWS
  | _ => (splitNL text).map stripTrailingWS

/-- The blank-line normalisation loop of `CommentGroup.Text()`: drop leading
blank lines and collapse runs of interior blank lines.  The accumulator holds
the kept lines reversed. -/
def collapseAux : List GoString → List GoString → List GoString
  | acc, [] => acc.reverse
  | acc, l :: rest =>
    if !l.isEmpty || (match acc.head? with | some a => !a.isEmpty | none => false) then
      collapseAux (l :: acc) rest
    else collapseAux acc rest

/-- Model of `strings.Join(lines, "\n")`. -/
def joinNL (ls : List GoString) : GoString :=
  (ls.intersperse ['\n']).flatten

/-- Model of `go/ast.CommentGroup.Text()`. -/
def groupText (g : CommentGroup) : GoString :=
  let lines := ((g.list.map (fun c => c.text)).map commentContrib).flatten
  let lines := collapseAux [] lines
  let lines := if lines ≠ [] ∧ lines.getLast? ≠ some [] then lines ++ [[]] else lines
  joinNL lines

/-- `Doc.Text()` for a possibly absent doc comment (`nil` yields `""`). -/
def docText : Option CommentGroup → GoString
  | none => []
  | some g => groupText g

/-- Model of `ast.ValueSpec`: the part the engine inspects (names, attached doc
comment, position).  `id` models node identity. -/
structure ValueSpec where
  id : Nat
  names : List GoString
  doc : Option CommentGroup
  pos : Int
deriving DecidableEq

/-- Model of `ast.TypeSpec`: the part the engine inspects. -/
structure TypeSpec where
  id : Nat
  name : GoString
  doc : Option CommentGroup
  pos : Int
deriving DecidableEq

/-- A `GenDecl` spec: either a value spec (var/const entry) or a type spec.
The Go code reaches them through `ast.Spec` type assertions. -/
inductive SpecNode where
  | value (vs : ValueSpec)
  | tspec (ts : TypeSpec)
deriving DecidableEq

/-- The declaration keyword of a `GenDecl`.  `tok_other` covers `import` and
any token the switch does not treat as documentable. -/
inductive GoTok where
  | tok_const
  | tok_var
  | tok_type
  | tok_other
deriving DecidableEq

/-- Model of `ast.GenDecl`.  `paren` is `!(Lparen == NoPos && Rparen == NoPos)`. -/
structure GenDecl where
  id : Nat
  tok : GoTok
  paren : Bool
  specs : List SpecNode
  doc : Option CommentGroup
  pos : Int
deriving DecidableEq

/-- Model of `ast.FuncDecl`.  `body` lists the `GenDecl`s of the `DeclStmt`s
appearing in the function body, in traversal order. -/
structure FuncDecl where
  id : Nat
  name : GoString
  doc : Option CommentGroup
  pos : Int
  body : List GenDecl
deriving DecidableEq

/-- A top-level declaration of the file. -/
inductive Decl where
  | func (fd : FuncDecl)
  | gen (gd : GenDecl)
deriving DecidableEq

/-- Model of the parsed file: its declarations in order, plus the comment
groups that are not attached to any declaration as a doc comment (they pass
through the comment map untouched). -/
structure File where
  decls : List Decl
  floating : List CommentGroup
deriving DecidableEq

/-- ASCII model of `ast.IsExported` (name starts with an upper-case letter). -/
def isUpperGo (c : Char) : Bool :=
  'A' ≤ c && c ≤ 'Z'

/-- Model of `Ident.IsExported` on the identifier's name. -/
def isExportedS (s : GoString) : Bool :=
  match s with
  | c :: _ => isUpperGo c
  | [] => false

/-- The package-level configuration of the tool: the `-template` and
`-paren-comment` flags read by `parseFile` and `modifyComment`. -/
structure Globals where
  template : GoString
  parenComment : Bool
deriving DecidableEq

/-- Modelled from the spec: the fixed comment-delimiter prefix of the template
(`commentBase`), a package constant that is not part of `src/`.  Per the spec,
the template is a format string with one name placeholder preceded by the
line-comment delimiter: `// %s`. -/
def commentBase : GoString := ['/', '/', ' ', '%', 's']

/-- Modelled from the spec: the indented template variant
(`commentIndentedBase`) used for entries of parenthesized groups; it differs
from `commentBase` only by an indentation prefix substituted in front of the
delimiter token. -/
def commentIndentedBase : GoString := ['\t', '/', '/', ' ', '%', 's']

/-- Modelled from the spec: the default value of the `-template` flag, the
suffix appended after the synthesized name (` ...` in the spec's examples). -/
def defaultTemplate : GoString := [' ', '.', '.', '.']

/-- Modelled from the spec: `isLineComment`, a helper that is not part of
`src/`.  A doc comment is a line-comment block when it is delimited by the
line-comment delimiter, checked on its first comment. -/
def isLineComment (g : CommentGroup) : Bool :=
  match g.list with
  | c :: _ => hasPrefixGo c.text ['/', '/']
  | [] => false

/-- Modelled from the spec: `hasCommentPrefix`, a helper that is not part of
`src/`.  Per the spec the first line must start with the declaration's name
as a whitespace-delimited prefix, i.e. the word right after the delimiter
field of the first line equals the name. -/
def hasCommentPrefix (g : CommentGroup) (nm : GoString) : Bool :=
  match g.list with
  | c :: _ =>
    match fieldsGo c.text with
    | _ :: f1 :: _ => f1 = nm
    | _ => false
  | [] => false

/-- Model of `modifyComment` (parse.go:171-182).  It reads the package-level
`template` flag, not `parseFile`'s argument.  When the first line is glued to
its delimiter, a synthesized line is prepended; otherwise the first line is
rebuilt from `commentBase` (only) and the text after the `// ` prefix.
Empty groups never occur on parsed trees (Go would panic indexing `List[0]`). -/
def modifyComment (G : Globals) (comment : CommentGroup) (nm : GoString) : CommentGroup :=
  let commentTemplate := commentBase ++ G.template
  match comment.list with
  | [] => comment
  | first :: rest =>
    if hasPrefixGo first.text ['/', '/'] ∧ ¬ hasPrefixGo first.text ['/', '/', ' '] then
      let text := sprintf1 commentTemplate nm
      ⟨⟨groupPos comment, text⟩ :: first :: rest⟩
    else
      let f1 := trimPrefixGo first.text ['/', '/', ' ']
      let f2 := sprintf2 (commentBase ++ ['%', 's']) nm f1
      ⟨⟨first.slash, f2⟩ :: rest⟩

/-- Model of `addFuncDeclComment` (parse.go:106-120). -/
def addFuncDeclComment (commentTemplate : GoString) (G : Globals) (fd : FuncDecl) : FuncDecl :=
  if fd.doc = none ∨ trimGo (docText fd.doc) = fd.name then
    let pos : Int := match fd.doc with | none => fd.pos - 1 | some d => groupPos d
    { fd with doc := some ⟨[⟨pos, sprintf1 commentTemplate fd.name⟩]⟩ }
  else
    match fd.doc with
    | some g =>
      if isLineComment g ∧ ¬ hasCommentPrefix g fd.name then
        { fd with doc := some (modifyComment G g fd.name) }
      else fd
    | none => fd

/-- Model of `addValueSpecComment` (parse.go:122-136); `nm` is
`vs.Names[0].Name` of the group's first value spec. -/
def addValueSpecComment (commentTemplate : GoString) (G : Globals) (nm : GoString) (gd : GenDecl) : GenDecl :=
  if gd.doc = none ∨ trimGo (docText gd.doc) = nm then
    let pos : Int := match gd.doc with | none => gd.pos - 1 | some d => groupPos d
    { gd with doc := some ⟨[⟨pos, sprintf1 commentTemplate nm⟩]⟩ }
  else
    match gd.doc with
    | some g =>
      if isLineComment g ∧ ¬ hasCommentPrefix g nm then
        { gd with doc := some (modifyComment G g nm) }
      else gd
    | none => gd

/-- Model of `addParenValueSpecComment` (parse.go:138-153); `nm` is
`vs.Names[0].Name`.  The template's `commentBase` prefix is swapped for the
indented variant before formatting. -/
def addParenValueSpecComment (commentTemplate : GoString) (G : Globals) (nm : GoString) (vs : ValueSpec) : ValueSpec :=
  if vs.doc = none ∨ trimGo (docText vs.doc) = nm then
    let ct := replaceFirstGo commentBase commentIndentedBase commentTemplate
    let pos : Int := match vs.doc with | none => vs.pos - 1 | some d => groupPos d
    { vs with doc := some ⟨[⟨pos, sprintf1 ct nm⟩]⟩ }
  else
    match vs.doc with
    | some g =>
      if isLineComment g ∧ ¬ hasCommentPrefix g nm then
        { vs with doc := some (modifyComment G g nm) }
      else vs
    | none => vs

/-- Model of `addTypeSpecComment` (parse.go:155-169); `nm` is `ts.Name.Name`. -/
def addTypeSpecComment (commentTemplate : GoString) (G : Globals) (nm : GoString) (gd : GenDecl) : GenDecl :=
  if gd.doc = none ∨ trimGo (docText gd.doc) = nm then
    let pos : Int := match gd.doc with | none => gd.pos - 1 | some d => groupPos d
    { gd with doc := some ⟨[⟨pos, sprintf1 commentTemplate nm⟩]⟩ }
  else
    match gd.doc with
    | some g =>
      if isLineComment g ∧ ¬ hasCommentPrefix g nm then
        { gd with doc := some (modifyComment G g nm) }
      else gd
    | none => gd

/-- The loop of the per-entry branch (parse.go:57-64): each spec is asserted
to be a `*ast.ValueSpec` (`none` = failed assertion panic), its first name is
read (`none` = out-of-range panic), and exported entries get a comment. -/
def perEntry (commentTemplate : GoString) (G : Globals) : List SpecNode → Option (List SpecNode)
  | [] => some []
  | SpecNode.value vs :: rest =>
    match vs.names.head? with
    | none => none
    | some nm =>
      let vs' := if isExportedS nm then addParenValueSpecComment commentTemplate G nm vs else vs
      match perEntry commentTemplate G rest with
      | none => none
      | some rest' => some (SpecNode.value vs' :: rest')
  | SpecNode.tspec _ :: _ => none

/-- The `*ast.GenDecl` case of the `ast.Inspect` callback (parse.go:51-89).
`skipped` is the set of node ids marked by enclosing `DeclStmt`s.  `none`
models a runtime panic (`Specs[0]` out of range, `Names[0]` out of range, or
a failed type assertion). -/
def visitGen (commentTemplate : GoString) (G : Globals) (skipped : List Nat) (gd : GenDecl) : Option GenDecl :=
  match gd.tok with
  | GoTok.tok_const | GoTok.tok_var =>
    if gd.paren ∧ G.parenComment then
      match perEntry commentTemplate G gd.specs with
      | none => none
      | some specs' => some { gd with specs := specs' }
    else if gd.specs = [] then some gd
    else
      match gd.specs.head? with
      | some (SpecNode.value vs) =>
        if gd.id ∈ skipped then some gd
        else
          match vs.names.head? with
          | none => none
          | some nm =>
            if ¬ isExportedS nm then some gd
            else some (addValueSpecComment commentTemplate G nm gd)
      | _ => none
  | GoTok.tok_type =>
    match gd.specs.head? with
    | some (SpecNode.tspec ts) =>
      if gd.id ∈ skipped ∨ ¬ isExportedS ts.name then some gd
      else some (addTypeSpecComment commentTemplate G ts.name gd)
    | some _ => none
    | none => none
  | GoTok.tok_other => some gd

/-- The `*ast.FuncDecl` case of the callback (parse.go:41-46), without the
body: the function's own doc comment is processed when the node is not marked
skipped and its name is exported. -/
def processFuncNode (commentTemplate : GoString) (G : Globals) (skipped : List Nat) (fd : FuncDecl) : FuncDecl :=
  if fd.id ∈ skipped ∨ ¬ isExportedS fd.name then fd
  else addFuncDeclComment commentTemplate G fd

/-- Traversal of the `DeclStmt`s of one function body: each `DeclStmt` first
marks its declaration's id as skipped (parse.go:48-49), then the declaration
node itself is visited.  Returns the updated declarations and skip set. -/
def runBody (commentTemplate : GoString) (G : Globals) :
    List Nat → List GenDecl → Option (List GenDecl × List Nat)
  | skipped, [] => some ([], skipped)
  | skipped, gd :: rest =>
    match visitGen commentTemplate G (gd.id :: skipped) gd with
    | none => none
    | some gd' =>
      match runBody commentTemplate G (gd.id :: skipped) rest with
      | none => none
      | some (rest', sk2) => some (gd' :: rest', sk2)

/-- The depth-first traversal of `ast.Inspect` over the file's declarations
(preorder: a function node is processed before the `DeclStmt`s of its body). -/
def runDecls (commentTemplate : GoString) (G : Globals) :
    List Nat → List Decl → Option (List Decl × List Nat)
  | skipped, [] => some ([], skipped)
  | skipped, Decl.func fd :: rest =>
    let fd1 := processFuncNode commentTemplate G skipped fd
    match runBody commentTemplate G skipped fd1.body with
    | none => none
    | some (body', sk1) =>
      match runDecls commentTemplate G sk1 rest with
      | none => none
      | some (rest', sk2) => some (Decl.func { fd1 with body := body' } :: rest', sk2)
  | skipped, Decl.gen gd :: rest =>
    match visitGen commentTemplate G skipped gd with
    | none => none
    | some gd' =>
      match runDecls commentTemplate G skipped rest with
      | none => none
      | some (rest', sk1) => some (Decl.gen gd' :: rest', sk1)

/-- The doc comment groups attached to one spec. -/
def specDocs : SpecNode → List CommentGroup
  | SpecNode.value vs => vs.doc.toList
  | SpecNode.tspec ts => ts.doc.toList

/-- The doc comment groups attached to a `GenDecl` and its specs. -/
def genDocs (gd : GenDecl) : List CommentGroup :=
  gd.doc.toList ++ (gd.specs.map specDocs).flatten

/-- The doc comment groups attached anywhere at or below one declaration. -/
def declDocs : Decl → List CommentGroup
  | Decl.func fd => fd.doc.toList ++ (fd.body.map genDocs).flatten
  | Decl.gen gd => genDocs gd

/-- All doc comment groups of the file. -/
def collectDocs (f : File) : List CommentGroup :=
  (f.decls.map declDocs).flatten

/-- Insertion into a position-sorted list of comment groups. -/
def insertByPos (g : CommentGroup) : List CommentGroup → List CommentGroup
  | [] => [g]
  | h :: t => if groupPos g ≤ groupPos h then g :: h :: t else h :: insertByPos g t

/-- Position sorting of comment groups, as `ast.CommentMap.Comments()` sorts
its result by offset. -/
def sortByPos : List CommentGroup → List CommentGroup
  | [] => []
  | g :: t => insertByPos g (sortByPos t)

/-- The file's comment list (`af.Comments`): every comment group of the tree,
sorted by position.  Per the spec's Comment Index invariant, projecting the
map back yields exactly the doc comments of the tree plus the unattached
groups, with no orphaned or duplicate entries. -/
def fileComments (f : File) : List CommentGroup :=
  sortByPos (collectDocs f ++ f.floating)

/-- The concatenation of `c.Text()` over a comment list (the `commentSign`
strings of parse.go:31-34 and 97-100). -/
def concatTexts (gs : List CommentGroup) : GoString :=
  (gs.map groupText).flatten

/-- The synthetic comment injected when the file has no comments
(parse.go:20-27): text `// gocmt` at position -1, removed again before
returning. -/
def injGroup : CommentGroup :=
  ⟨[⟨-1, ['/', '/', ' ', 'g', 'o', 'c', 'm', 't']⟩]⟩

/-- Model of `parseFile` (parse.go:14-104) after a successful parse: build the
comment signature, traverse, project the comment map back, compare.  `G` holds
the package-level flags, `template` is the function's template argument
(`commentTemplate = commentBase + template`).  `none` models a runtime panic
during traversal. -/
def parseFile (G : Globals) (template : GoString) (f : File) : Option (File × Bool) :=
  let base := fileComments f
  let injected := base = []
  let afComments := if injected then [injGroup] else base
  let commentTemplate := commentBase ++ template
  let originalCommentSign := concatTexts afComments
  match runDecls commentTemplate G [] f.decls with
  | none => none
  | some (decls', _) =>
    let f' : File := ⟨decls', f.floating⟩
    let rebuilt := sortByPos ((collectDocs f' ++ f.floating) ++ (if injected then [injGroup] else []))
    let currentCommentSign := concatTexts rebuilt
    some (f', decide (currentCommentSign ≠ originalCommentSign))

/-- Position well-formedness of a spec: parsed nodes have positions ≥ 1. -/
def specPosOK : SpecNode → Bool
  | SpecNode.value vs => decide (1 ≤ vs.pos)
  | SpecNode.tspec ts => decide (1 ≤ ts.pos)

/-- Position well-formedness of a `GenDecl` and its specs. -/
def genPosOK (gd : GenDecl) : Bool :=
  decide (1 ≤ gd.pos) && gd.specs.all specPosOK

/-- Position well-formedness of a declaration. -/
def declPosOK : Decl → Bool
  | Decl.func fd => decide (1 ≤ fd.pos) && fd.body.all genPosOK
  | Decl.gen gd => genPosOK gd

/-- Position well-formedness of a file: every node the synthesizer can anchor
a fresh comment to has position ≥ 1, as in any parsed file. -/
def filePosOK (f : File) : Bool :=
  f.decls.all declPosOK

/-- The per-entry result the spec predicts for one entry of a parenthesized
group with no existing docs: every exported entry gets its own comment
synthesized from the indented template variant; unexported entries are left
alone. -/
def c9ExpectedEntry (commentTemplate : GoString) : SpecNode → SpecNode
  | SpecNode.value vs =>
    SpecNode.value
      (if isExportedS (vs.names.headD []) then
        { vs with doc := some ⟨[⟨vs.pos - 1,
            sprintf1 (replaceFirstGo commentBase commentIndentedBase commentTemplate) (vs.names.headD [])⟩]⟩ }
      else vs)
  | SpecNode.tspec ts => SpecNode.tspec ts

/-! Concrete input files used to evaluate the model. -/

/-- Default configuration: `-template " ..."`, `-paren-comment=false`. -/
def exGlobals : Globals := ⟨defaultTemplate, false⟩

/-- Configuration with `-paren-comment=true`. -/
def exGlobalsParen : Globals := ⟨defaultTemplate, true⟩

/-- A file with one exported function `Foo` documented `// does stuff`. -/
def exC1File : File :=
  ⟨[Decl.func ⟨1, "Foo".data, some ⟨[⟨10, "// does stuff".data⟩]⟩, 20, []⟩], []⟩

/-- `exC1File` after one pass: the name was glued into the first line. -/
def exC1Once : File :=
  ⟨[Decl.func ⟨1, "Foo".data, some ⟨[⟨10, "// Foodoes stuff".data⟩]⟩, 20, []⟩], []⟩

/-- `exC1File` after two passes: the name was glued in a second time. -/
def exC1Twice : File :=
  ⟨[Decl.func ⟨1, "Foo".data, some ⟨[⟨10, "// FooFoodoes stuff".data⟩]⟩, 20, []⟩], []⟩

/-- `package p; func f() { var ( A = 1 ) }`: an unexported function whose body
declares a parenthesized var group with the exported entry `A`. -/
def exC2File : File :=
  ⟨[Decl.func ⟨1, "f".data, none, 10,
      [⟨2, GoTok.tok_var, true, [SpecNode.value ⟨3, ["A".data], none, 30⟩], none, 25⟩]⟩], []⟩

/-- `exC2File` after a pass with `parenComment = true`: the local entry `A`
received a synthesized indented comment. -/
def exC2Out : File :=
  ⟨[Decl.func ⟨1, "f".data, none, 10,
      [⟨2, GoTok.tok_var, true,
        [SpecNode.value ⟨3, ["A".data], some ⟨[⟨29, "\t// A ...".data⟩]⟩, 30⟩], none, 25⟩]⟩], []⟩

/-- `package p; type ()`: a file whose only declaration is an empty
parenthesized type group. -/
def exC6File : File :=
  ⟨[Decl.gen ⟨1, GoTok.tok_type, true, [], none, 10⟩], []⟩

/-- `package p; var ()`: a file whose only declaration is an empty
parenthesized var group. -/
def exC6VarFile : File :=
  ⟨[Decl.gen ⟨1, GoTok.tok_var, true, [], none, 10⟩], []⟩

/-- A doc comment `// does stuff` used to exercise the rewrite branch. -/
def exC4Group : CommentGroup := ⟨[⟨10, "// does stuff".data⟩]⟩

/-- An exported function whose two-line doc block `// ` / `// Foo` trims to
exactly the function name. -/
def exC4TrivFd : FuncDecl :=
  ⟨1, "Foo".data, some ⟨[⟨5, "// ".data⟩, ⟨9, "// Foo".data⟩]⟩, 40, []⟩

/-- An exported function `Run` documented with the delimiter-glued line
`//Run`, whose text trims to exactly the function name. -/
def exC7Fd : FuncDecl :=
  ⟨1, "Run".data, some ⟨[⟨5, "//Run".data⟩]⟩, 40, []⟩

end Gocmt

namespace Gocmt

/-- Claim C1: the spec asserts that a second `parseFile` pass on the same file
reports `modified = false` with identical comment text.  The code violates
this: for `func Foo` documented `// does stuff`, the malformed-line rewrite
produces `// Foodoes stuff` (the injected name is glued to the old text, so it
never becomes a whitespace-delimited prefix), and the second pass rewrites
again to `// FooFoodoes stuff` and reports `modified = true`. -/
theorem c1_rewrite_not_idempotent :
    parseFile exGlobals defaultTemplate exC1File = some (exC1Once, true) ∧
    parseFile exGlobals defaultTemplate exC1Once = some (exC1Twice, true) ∧
    concatTexts (fileComments exC1Twice) ≠ concatTexts (fileComments exC1Once) := by
  decide

/-- Claim C2: the spec asserts that declarations nested in a function body are
never treated as documentable under any flag setting.  The code violates this
when `parenComment = true`: the per-entry branch omits the `skipped` check, so
the exported entry `A` of a parenthesized var group inside the body of `f`
receives a synthesized indented comment and the pass reports `modified = true`. -/
theorem c2_local_paren_entry_commented :
    parseFile exGlobalsParen defaultTemplate exC2File = some (exC2Out, true) := by
  decide

/-- Claim C6: the spec asserts traversal is total on well-formed trees
including empty parenthesized groups of every kind.  The code guards the empty
var/const group (a no-op) but indexes `Specs[0]` of a `type ()` group without
a guard, which panics (modelled as `none`). -/
theorem c6_empty_type_group_panics :
    parseFile exGlobals defaultTemplate exC6File = none ∧
    parseFile exGlobals defaultTemplate exC6VarFile = some (exC6VarFile, false) := by
  decide

/-- A string starting with the delimiter-plus-space also starts with the bare
delimiter. -/
theorem hasPrefixGo_slash_of_space (s : GoString)
    (h : hasPrefixGo s ['/', '/', ' '] = true) : hasPrefixGo s ['/', '/'] = true := by
  simp only [hasPrefixGo, List.isPrefixOf_iff_prefix] at h ⊢
  exact List.IsPrefix.trans ⟨[' '], rfl⟩ h

/-- A group whose first comment starts with `//` is a line comment. -/
theorem isLineComment_cons (first : Comment) (rest : List Comment)
    (h : hasPrefixGo first.text ['/', '/'] = true) :
    isLineComment ⟨first :: rest⟩ = true := by
  simpa [isLineComment] using h

/-- Formatting the template `commentBase ++ t` with one argument. -/
theorem sprintf1_base (t a : GoString) :
    sprintf1 (commentBase ++ t) a = '/' :: '/' :: ' ' :: (a ++ t) := by
  simp [commentBase, sprintf1]

/-- Formatting `commentBase + "%s"` with two arguments, as the rewrite branch
of `modifyComment` does. -/
theorem sprintf2_base (a b : GoString) :
    sprintf2 (commentBase ++ ['%', 's']) a b = '/' :: '/' :: ' ' :: (a ++ b) := by
  simp [commentBase, sprintf2, sprintf1]

/-- The rewrite branch of `modifyComment`: when the first line starts with
`// `, it is rebuilt in place from `commentBase` and the remaining text. -/
theorem modifyComment_rewrite (G : Globals) (first : Comment) (rest : List Comment)
    (nm : GoString) (hp : hasPrefixGo first.text ['/', '/', ' '] = true) :
    modifyComment G ⟨first :: rest⟩ nm =
      ⟨⟨first.slash, '/' :: '/' :: ' ' :: (nm ++ trimPrefixGo first.text ['/', '/', ' '])⟩ :: rest⟩ := by
  simp [modifyComment, hp, sprintf2_base]

/-- The prepend branch of `modifyComment`: when the first line's delimiter is
glued, a synthesized line built from the package-level template flag is added
in front and the whole original list is preserved. -/
theorem modifyComment_prepend (G : Globals) (first : Comment) (rest : List Comment)
    (nm : GoString) (hp2 : hasPrefixGo first.text ['/', '/'] = true)
    (hpn : hasPrefixGo first.text ['/', '/', ' '] = false) :
    modifyComment G ⟨first :: rest⟩ nm =
      ⟨⟨first.slash, sprintf1 (commentBase ++ G.template) nm⟩ :: first :: rest⟩ := by
  simp [modifyComment, hp2, hpn, groupPos]

/-- `addFuncDeclComment` reaches `modifyComment` exactly when the doc exists,
is not trivial, is a line comment and is not name-prefixed. -/
theorem addFuncDeclComment_modify (ct : GoString) (G : Globals) (fd : FuncDecl)
    (g : CommentGroup) (hd : fd.doc = some g)
    (ht : trimGo (groupText g) ≠ fd.name) (hlc : isLineComment g = true)
    (hcp : hasCommentPrefix g fd.name = false) :
    addFuncDeclComment ct G fd = { fd with doc := some (modifyComment G g fd.name) } := by
  simp [addFuncDeclComment, hd, docText, ht, hlc, hcp]

/-- An exported, unskipped function node is processed by `addFuncDeclComment`. -/
theorem processFuncNode_exported (ct : GoString) (G : Globals) (sk : List Nat)
    (fd : FuncDecl) (hsk : fd.id ∉ sk) (hex : isExportedS fd.name = true) :
    processFuncNode ct G sk fd = addFuncDeclComment ct G fd := by
  simp [processFuncNode, hsk, hex]

/-- Claim C4 (counterexample): the claim predicts the rewritten first line is
the template filled with the name followed by the remaining text.  The code
instead uses only `commentBase`, dropping the template suffix and gluing the
name to the remaining text (`// Foodoes stuff`), and when the claim's
conditions hold but the block trims to exactly the name, the whole block is
replaced by a single synthesized line instead of being rewritten in place. -/
theorem c4_counterexample :
    modifyComment exGlobals exC4Group ("Foo".data) = ⟨[⟨10, "// Foodoes stuff".data⟩]⟩ ∧
    ("// Foodoes stuff".data : GoString) ≠
      sprintf1 (commentBase ++ defaultTemplate) ("Foo".data) ++ ("does stuff".data) ∧
    addFuncDeclComment (commentBase ++ defaultTemplate) exGlobals exC4TrivFd =
      ⟨1, "Foo".data, some ⟨[⟨5, "// Foo ...".data⟩]⟩, 40, []⟩ := by
  decide

/-- Claim C4 (amended): when an exported, unskipped declaration's doc comment
is a line block whose trimmed text is not exactly the name, whose first line
is not name-prefixed, and whose first line starts with delimiter-plus-space,
the first line is rewritten in place as the fixed base `// ` followed by the
name immediately followed by the remaining text (the template suffix is not
used), all other lines kept. -/
theorem c4_rewrite_in_place (ct : GoString) (G : Globals) (sk : List Nat)
    (fd : FuncDecl) (first : Comment) (rest : List Comment)
    (hsk : fd.id ∉ sk) (hex : isExportedS fd.name = true)
    (hd : fd.doc = some ⟨first :: rest⟩)
    (ht : trimGo (groupText ⟨first :: rest⟩) ≠ fd.name)
    (hcp : hasCommentPrefix ⟨first :: rest⟩ fd.name = false)
    (hp : hasPrefixGo first.text ['/', '/', ' '] = true) :
    processFuncNode ct G sk fd =
      { fd with doc := some ⟨⟨first.slash, '/' :: '/' :: ' ' :: (fd.name ++ trimPrefixGo first.text ['/', '/', ' '])⟩ :: rest⟩ } := by
  rw [processFuncNode_exported ct G sk fd hsk hex,
    addFuncDeclComment_modify ct G fd ⟨first :: rest⟩ hd ht
      (isLineComment_cons first rest (hasPrefixGo_slash_of_space _ hp)) hcp,
    modifyComment_rewrite G first rest fd.name hp]

/-- Witness for the amended claim C4 at a concrete input. -/
theorem c4_rewrite_in_place_witness :
    processFuncNode (commentBase ++ defaultTemplate) exGlobals []
        ⟨1, "Foo".data, some ⟨[⟨10, "// does stuff".data⟩]⟩, 20, []⟩ =
      ⟨1, "Foo".data, some ⟨[⟨10, "// Foodoes stuff".data⟩]⟩, 20, []⟩ := by
  have h := c4_rewrite_in_place (commentBase ++ defaultTemplate) exGlobals []
    ⟨1, "Foo".data, some ⟨[⟨10, "// does stuff".data⟩]⟩, 20, []⟩
    ⟨10, "// does stuff".data⟩ []
    (by decide) (by decide) rfl (by decide) (by decide) (by decide)
  exact h.trans (by decide)

/-- Claim C7 (counterexample): for `func Run` documented `//Run` — a glued
line comment not name-prefixed — the claim predicts a prepended synthesized
line with the original preserved; the code's trivial-doc branch fires first
(the text trims to exactly the name) and replaces the block with a single
line, discarding the original. -/
theorem c7_counterexample :
    addFuncDeclComment (commentBase ++ defaultTemplate) exGlobals exC7Fd =
      ⟨1, "Run".data, some ⟨[⟨5, "// Run ...".data⟩]⟩, 40, []⟩ ∧
    ((addFuncDeclComment (commentBase ++ defaultTemplate) exGlobals exC7Fd).doc.map
        fun g => g.list.length) ≠ some 2 := by
  decide

/-- Claim C7 (amended): for an exported, unskipped declaration whose doc is a
line block that does not trim to exactly the name and is not name-prefixed,
if the first line's delimiter is not followed by a space, a synthesized line
(template filled with the name) is prepended and every original line is kept
unchanged, in order, after it. -/
theorem c7_glued_prepend (ct : GoString) (G : Globals) (sk : List Nat)
    (fd : FuncDecl) (first : Comment) (rest : List Comment)
    (hsk : fd.id ∉ sk) (hex : isExportedS fd.name = true)
    (hd : fd.doc = some ⟨first :: rest⟩)
    (ht : trimGo (groupText ⟨first :: rest⟩) ≠ fd.name)
    (hcp : hasCommentPrefix ⟨first :: rest⟩ fd.name = false)
    (hp2 : hasPrefixGo first.text ['/', '/'] = true)
    (hpn : hasPrefixGo first.text ['/', '/', ' '] = false) :
    processFuncNode ct G sk fd =
      { fd with doc := some ⟨⟨first.slash, sprintf1 (commentBase ++ G.template) fd.name⟩ :: first :: rest⟩ } := by
  rw [processFuncNode_exported ct G sk fd hsk hex,
    addFuncDeclComment_modify ct G fd ⟨first :: rest⟩ hd ht
      (isLineComment_cons first rest hp2) hcp,
    modifyComment_prepend G first rest fd.name hp2 hpn]

/-- Witness for the amended claim C7 at the spec's `//nolint:foo` example. -/
theorem c7_glued_prepend_witness :
    processFuncNode (commentBase ++ defaultTemplate) exGlobals []
        ⟨1, "Run".data, some ⟨[⟨5, "//nolint:foo".data⟩]⟩, 40, []⟩ =
      ⟨1, "Run".data, some ⟨[⟨5, "// Run ...".data⟩, ⟨5, "//nolint:foo".data⟩]⟩, 40, []⟩ := by
  have h := c7_glued_prepend (commentBase ++ defaultTemplate) exGlobals []
    ⟨1, "Run".data, some ⟨[⟨5, "//nolint:foo".data⟩]⟩, 40, []⟩
    ⟨5, "//nolint:foo".data⟩ []
    (by decide) (by decide) rfl (by decide) (by decide) (by decide) (by decide)
  exact h.trans (by decide)

/-- Claim C10: whenever a declaration's doc comment takes the malformed-line
path (`modifyComment`), the synthesized text is built from the package-level
template flag (and `commentBase`), never from the template argument passed to
`parseFile`: varying the argument while the flag is fixed leaves the result of
every `add*Comment` function unchanged on that path. -/
theorem c10_modify_ignores_template_argument :
    (∀ (G : Globals) (t1 t2 : GoString) (fd : FuncDecl) (g : CommentGroup),
      fd.doc = some g → trimGo (groupText g) ≠ fd.name → isLineComment g = true →
      hasCommentPrefix g fd.name = false →
      addFuncDeclComment (commentBase ++ t1) G fd = addFuncDeclComment (commentBase ++ t2) G fd) ∧
    (∀ (G : Globals) (t1 t2 nm : GoString) (gd : GenDecl) (g : CommentGroup),
      gd.doc = some g → trimGo (groupText g) ≠ nm → isLineComment g = true →
      hasCommentPrefix g nm = false →
      addValueSpecComment (commentBase ++ t1) G nm gd = addValueSpecComment (commentBase ++ t2) G nm gd) ∧
    (∀ (G : Globals) (t1 t2 nm : GoString) (vs : ValueSpec) (g : CommentGroup),
      vs.doc = some g → trimGo (groupText g) ≠ nm → isLineComment g = true →
      hasCommentPrefix g nm = false →
      addParenValueSpecComment (commentBase ++ t1) G nm vs = addParenValueSpecComment (commentBase ++ t2) G nm vs) ∧
    (∀ (G : Globals) (t1 t2 nm : GoString) (gd : GenDecl) (g : CommentGroup),
      gd.doc = some g → trimGo (groupText g) ≠ nm → isLineComment g = true →
      hasCommentPrefix g nm = false →
      addTypeSpecComment (commentBase ++ t1) G nm gd = addTypeSpecComment (commentBase ++ t2) G nm gd) := by
  refine ⟨?_, ?_, ?_, ?_⟩
  · intro G t1 t2 fd g hd ht hlc hcp
    rw [addFuncDeclComment_modify _ G fd g hd ht hlc hcp,
      addFuncDeclComment_modify _ G fd g hd ht hlc hcp]
  · intro G t1 t2 nm gd g hd ht hlc hcp
    simp [addValueSpecComment, hd, docText, ht, hlc, hcp]
  · intro G t1 t2 nm vs g hd ht hlc hcp
    simp [addParenValueSpecComment, hd, docText, ht, hlc, hcp]
  · intro G t1 t2 nm gd g hd ht hlc hcp
    simp [addTypeSpecComment, hd, docText, ht, hlc, hcp]

/-- Inserting into a list grows its length by one. -/
theorem insertByPos_length (g : CommentGroup) :
    ∀ l : List CommentGroup, (insertByPos g l).length = l.length + 1 := by
  intro l
  induction l with
  | nil => rfl
  | cons h t ih =>
    simp only [insertByPos]
    split
    · simp
    · simp [ih]

/-- Sorting preserves length. -/
theorem sortByPos_length : ∀ l : List CommentGroup, (sortByPos l).length = l.length := by
  intro l
  induction l with
  | nil => rfl
  | cons g t ih => simp [sortByPos, insertByPos_length, ih]

/-- Only the empty list sorts to the empty list. -/
theorem sortByPos_eq_nil {l : List CommentGroup} (h : sortByPos l = []) : l = [] := by
  have hl := sortByPos_length l
  rw [h] at hl
  exact List.length_eq_zero.mp hl.symm

/-- Appending an element strictly below every list element sorts to the front. -/
theorem sortByPos_append_min (g0 : CommentGroup) :
    ∀ l : List CommentGroup, (∀ g ∈ l, groupPos g0 < groupPos g) →
      sortByPos (l ++ [g0]) = g0 :: sortByPos l := by
  intro l
  induction l with
  | nil => intro _; rfl
  | cons a t ih =>
    intro h
    have ha := h a (by simp)
    rw [List.cons_append, sortByPos, ih (fun g hg => h g (by simp [hg])), sortByPos]
    simp only [insertByPos]
    rw [if_neg (by omega)]

/-- `addFuncDeclComment` never changes the function body. -/
theorem addFuncDeclComment_body (ct : GoString) (G : Globals) (fd : FuncDecl) :
    (addFuncDeclComment ct G fd).body = fd.body := by
  unfold addFuncDeclComment
  split
  · rfl
  · split
    · split
      · rfl
      · rfl
    · rfl

/-- `processFuncNode` never changes the function body. -/
theorem processFuncNode_body (ct : GoString) (G : Globals) (sk : List Nat) (fd : FuncDecl) :
    (processFuncNode ct G sk fd).body = fd.body := by
  unfold processFuncNode
  split
  · rfl
  · exact addFuncDeclComment_body ct G fd

/-- A function node with no doc comment and a real position gets (at most) a
fresh doc comment anchored at `pos - 1 ≥ 0`. -/
theorem processFuncNode_fresh (ct : GoString) (G : Globals) (sk : List Nat) (fd : FuncDecl)
    (hdoc : fd.doc = none) (hpos : 1 ≤ fd.pos) :
    ∀ g ∈ (processFuncNode ct G sk fd).doc.toList, -1 < groupPos g := by
  unfold processFuncNode
  split
  · simp [hdoc]
  · unfold addFuncDeclComment
    rw [if_pos (Or.inl hdoc)]
    intro g hg
    simp only [hdoc, Option.toList_some, List.mem_singleton] at hg
    subst hg
    simp only [groupPos]
    omega

/-- The per-entry loop over doc-free, position-well-formed specs yields only
docs anchored at positions above the injected placeholder. -/
theorem perEntry_fresh_docs (ct : GoString) (G : Globals) :
    ∀ (specs specs' : List SpecNode),
      (specs.map specDocs).flatten = [] → specs.all specPosOK = true →
      perEntry ct G specs = some specs' →
      ∀ g ∈ (specs'.map specDocs).flatten, -1 < groupPos g := by
  intro specs
  induction specs with
  | nil =>
    intro specs' _ _ hrun
    simp only [perEntry, Option.some.injEq] at hrun
    subst hrun
    simp
  | cons s tl ih =>
    intro specs' hdocs hpos hrun
    cases s with
    | tspec ts => simp [perEntry] at hrun
    | value vs =>
      rw [perEntry] at hrun
      cases hn : vs.names.head? with
      | none => rw [hn] at hrun; simp at hrun
      | some nm =>
        rw [hn] at hrun
        cases htl : perEntry ct G tl with
        | none => rw [htl] at hrun; simp at hrun
        | some tl' =>
          rw [htl] at hrun
          simp only [Option.some.injEq] at hrun
          subst hrun
          simp only [List.map_cons, List.flatten_cons, List.append_eq_nil] at hdocs
          simp only [List.all_cons, Bool.and_eq_true] at hpos
          have hvsdoc : vs.doc = none := by
            cases hv : vs.doc
            · rfl
            · rw [specDocs, hv] at hdocs; simp at hdocs
          have hvpos : 1 ≤ vs.pos := by
            have := hpos.1
            simpa [specPosOK] using this
          intro g hg
          simp only [List.map_cons, List.flatten_cons, List.mem_append] at hg
          rcases hg with hg | hg
          · by_cases hex : isExportedS nm
            · rw [if_pos hex] at hg
              simp [specDocs, addParenValueSpecComment, hvsdoc] at hg
              subst hg
              simp only [groupPos]
              omega
            · rw [if_neg hex] at hg
              simp [specDocs, hvsdoc] at hg
          · exact ih tl' hdocs.2 hpos.2 htl g hg

/-- `visitGen` on a doc-free, position-well-formed declaration yields only
docs anchored strictly above the injected placeholder. -/
theorem visitGen_fresh (ct : GoString) (G : Globals) (sk : List Nat) (gd gd' : GenDecl)
    (hdocs : genDocs gd = []) (hpos : genPosOK gd = true)
    (hrun : visitGen ct G sk gd = some gd') :
    ∀ g ∈ genDocs gd', -1 < groupPos g := by
  have hgdoc : gd.doc = none := by
    cases hv : gd.doc
    · rfl
    · rw [genDocs, hv] at hdocs; simp at hdocs
  have hsdocs : (gd.specs.map specDocs).flatten = [] := by
    rw [genDocs] at hdocs
    exact (List.append_eq_nil.mp hdocs).2
  have hpos2 : 1 ≤ gd.pos ∧ gd.specs.all specPosOK = true := by
    simpa [genPosOK, Bool.and_eq_true, decide_eq_true_eq] using hpos
  have hgpos : 1 ≤ gd.pos := hpos2.1
  have hspos : gd.specs.all specPosOK = true := hpos2.2
  rw [visitGen] at hrun
  cases htok : gd.tok with
  | tok_other =>
    rw [htok] at hrun
    dsimp only at hrun
    simp only [Option.some.injEq] at hrun
    subst hrun
    simp [hdocs]
  | tok_type =>
    rw [htok] at hrun
    dsimp only at hrun
    cases hh : gd.specs.head? with
    | none => rw [hh] at hrun; simp at hrun
    | some s =>
      rw [hh] at hrun
      cases s with
      | value vs => simp at hrun
      | tspec ts =>
        dsimp only at hrun
        by_cases hskip : gd.id ∈ sk ∨ ¬ isExportedS ts.name
        · rw [if_pos hskip] at hrun
          simp only [Option.some.injEq] at hrun
          subst hrun
          simp [hdocs]
        · rw [if_neg hskip] at hrun
          simp only [Option.some.injEq] at hrun
          subst hrun
          intro g hg
          simp [genDocs, addTypeSpecComment, hgdoc, hsdocs] at hg
          subst hg
          simp only [groupPos]
          omega
  | tok_const | tok_var =>
    rw [htok] at hrun
    dsimp only at hrun
    by_cases hpp : gd.paren ∧ G.parenComment
    · rw [if_pos hpp] at hrun
      cases hpe : perEntry ct G gd.specs with
      | none => rw [hpe] at hrun; simp at hrun
      | some specs' =>
        rw [hpe] at hrun
        simp only [Option.some.injEq] at hrun
        subst hrun
        intro g hg
        simp only [genDocs, hgdoc, Option.toList_none, List.nil_append] at hg
        exact perEntry_fresh_docs ct G gd.specs specs' hsdocs hspos hpe g hg
    · rw [if_neg hpp] at hrun
      by_cases hsp : gd.specs = []
      · rw [if_pos hsp] at hrun
        simp only [Option.some.injEq] at hrun
        subst hrun
        simp [hdocs]
      · rw [if_neg hsp] at hrun
        cases hh : gd.specs.head? with
        | none => rw [hh] at hrun; simp at hrun
        | some s =>
          rw [hh] at hrun
          cases s with
          | tspec ts => simp at hrun
          | value vs =>
            dsimp only at hrun
            by_cases hskip : gd.id ∈ sk
            · rw [if_pos hskip] at hrun
              simp only [Option.some.injEq] at hrun
              subst hrun
              simp [hdocs]
            · rw [if_neg hskip] at hrun
              cases hn : vs.names.head? with
              | none => rw [hn] at hrun; simp at hrun
              | some nm =>
                rw [hn] at hrun
                dsimp only at hrun
                by_cases hex : ¬ isExportedS nm
                · rw [if_pos hex] at hrun
                  simp only [Option.some.injEq] at hrun
                  subst hrun
                  simp [hdocs]
                · rw [if_neg hex] at hrun
                  simp only [Option.some.injEq] at hrun
                  subst hrun
                  intro g hg
                  simp [genDocs, addValueSpecComment, hgdoc, hsdocs] at hg
                  subst hg
                  simp only [groupPos]
                  omega

/-- `runBody` over doc-free, position-well-formed local declarations yields
only docs anchored strictly above the injected placeholder. -/
theorem runBody_fresh (ct : GoString) (G : Globals) :
    ∀ (gds : List GenDecl) (sk : List Nat) (gds' : List GenDecl) (sk' : List Nat),
      (gds.map genDocs).flatten = [] → gds.all genPosOK = true →
      runBody ct G sk gds = some (gds', sk') →
      ∀ g ∈ (gds'.map genDocs).flatten, -1 < groupPos g := by
  intro gds
  induction gds with
  | nil =>
    intro sk gds' sk' _ _ hrun
    simp only [runBody, Option.some.injEq, Prod.mk.injEq] at hrun
    rw [← hrun.1]
    simp
  | cons gd tl ih =>
    intro sk gds' sk' hdocs hpos hrun
    rw [runBody] at hrun
    cases hv : visitGen ct G (gd.id :: sk) gd with
    | none => rw [hv] at hrun; simp at hrun
    | some gd1 =>
      rw [hv] at hrun
      dsimp only at hrun
      cases hb : runBody ct G (gd.id :: sk) tl with
      | none => rw [hb] at hrun; simp at hrun
      | some p =>
        obtain ⟨tl', sk2⟩ := p
        rw [hb] at hrun
        dsimp only at hrun
        simp only [Option.some.injEq, Prod.mk.injEq] at hrun
        rw [← hrun.1]
        simp only [List.map_cons, List.flatten_cons, List.append_eq_nil] at hdocs
        simp only [List.all_cons, Bool.and_eq_true] at hpos
        intro g hg
        simp only [List.map_cons, List.flatten_cons, List.mem_append] at hg
        rcases hg with hg | hg
        · exact visitGen_fresh ct G (gd.id :: sk) gd gd1 hdocs.1 hpos.1 hv g hg
        · exact ih (gd.id :: sk) tl' sk2 hdocs.2 hpos.2 hb g hg

/-- `runDecls` over a doc-free, position-well-formed file yields only docs
anchored strictly above the injected placeholder. -/
theorem runDecls_fresh (ct : GoString) (G : Globals) :
    ∀ (ds : List Decl) (sk : List Nat) (ds' : List Decl) (sk' : List Nat),
      (ds.map declDocs).flatten = [] → ds.all declPosOK = true →
      runDecls ct G sk ds = some (ds', sk') →
      ∀ g ∈ (ds'.map declDocs).flatten, -1 < groupPos g := by
  intro ds
  induction ds with
  | nil =>
    intro sk ds' sk' _ _ hrun
    simp only [runDecls, Option.some.injEq, Prod.mk.injEq] at hrun
    rw [← hrun.1]
    simp
  | cons d tl ih =>
    intro sk ds' sk' hdocs hpos hrun
    simp only [List.map_cons, List.flatten_cons, List.append_eq_nil] at hdocs
    simp only [List.all_cons, Bool.and_eq_true] at hpos
    cases d with
    | func fd =>
      rw [runDecls] at hrun
      cases hb : runBody ct G sk (processFuncNode ct G sk fd).body with
      | none => rw [hb] at hrun; simp at hrun
      | some p =>
        obtain ⟨body', sk1⟩ := p
        rw [hb] at hrun
        dsimp only at hrun
        cases hr : runDecls ct G sk1 tl with
        | none => rw [hr] at hrun; simp at hrun
        | some q =>
          obtain ⟨tl', sk2⟩ := q
          rw [hr] at hrun
          dsimp only at hrun
          simp only [Option.some.injEq, Prod.mk.injEq] at hrun
          rw [← hrun.1]
          have hfdoc : fd.doc = none := by
            cases hv : fd.doc
            · rfl
            · rw [declDocs, hv] at hdocs
              have := hdocs.1
              simp at this
          have hbdocs : (fd.body.map genDocs).flatten = [] := by
            have := hdocs.1
            rw [declDocs] at this
            exact (List.append_eq_nil.mp this).2
          have hposf : 1 ≤ fd.pos ∧ fd.body.all genPosOK = true := by
            have hp := hpos.1
            simpa [declPosOK, Bool.and_eq_true, decide_eq_true_eq] using hp
          have hfpos : 1 ≤ fd.pos := hposf.1
          have hbpos : fd.body.all genPosOK = true := hposf.2
          intro g hg
          simp only [List.map_cons, List.flatten_cons, List.mem_append, declDocs] at hg
          rcases hg with (hg2 | hg2) | hg
          · exact processFuncNode_fresh ct G sk fd hfdoc hfpos g hg2
          · rw [processFuncNode_body] at hb
            exact runBody_fresh ct G fd.body sk body' sk1 hbdocs hbpos hb g hg2
          · exact ih sk1 tl' sk2 hdocs.2 hpos.2 hr g hg
    | gen gd =>
      rw [runDecls] at hrun
      cases hv : visitGen ct G sk gd with
      | none => rw [hv] at hrun; simp at hrun
      | some gd1 =>
        rw [hv] at hrun
        dsimp only at hrun
        cases hr : runDecls ct G sk tl with
        | none => rw [hr] at hrun; simp at hrun
        | some q =>
          obtain ⟨tl', sk1⟩ := q
          rw [hr] at hrun
          dsimp only at hrun
          simp only [Option.some.injEq, Prod.mk.injEq] at hrun
          rw [← hrun.1]
          intro g hg
          simp only [List.map_cons, List.flatten_cons, List.mem_append, declDocs] at hg
          rcases hg with hg | hg
          · exact visitGen_fresh ct G sk gd gd1 hdocs.1 hpos.1 hv g hg
          · exact ih sk tl' sk1 hdocs.2 hpos.2 hr g hg

/-- Claim C5: on a position-well-formed file, a non-panicking `parseFile` pass
reports `modified = true` exactly when the concatenated comment text of the
returned tree differs from the concatenated comment text of the input tree
(the synthetic placeholder injected for comment-free files cancels out). -/
theorem c5_modified_iff (G : Globals) (t : GoString) (f f' : File) (m : Bool)
    (hwf : filePosOK f = true)
    (hrun : parseFile G t f = some (f', m)) :
    m = true ↔ concatTexts (fileComments f') ≠ concatTexts (fileComments f) := by
  simp only [parseFile] at hrun
  cases hrd : runDecls (commentBase ++ t) G [] f.decls with
  | none => rw [hrd] at hrun; simp at hrun
  | some p =>
    obtain ⟨decls', sk'⟩ := p
    rw [hrd] at hrun
    by_cases hbase : fileComments f = []
    · rw [if_pos hbase, if_pos hbase] at hrun
      simp only [Option.some.injEq, Prod.mk.injEq] at hrun
      obtain ⟨hf', hm⟩ := hrun
      have hnil : collectDocs f ++ f.floating = [] := sortByPos_eq_nil hbase
      have hfl : f.floating = [] := (List.append_eq_nil.mp hnil).2
      have hdocs : collectDocs f = [] := (List.append_eq_nil.mp hnil).1
      have hfresh : ∀ g ∈ collectDocs (⟨decls', f.floating⟩ : File), -1 < groupPos g := by
        intro g hg
        exact runDecls_fresh (commentBase ++ t) G f.decls [] decls' sk'
          (by simpa [collectDocs] using hdocs) (by simpa [filePosOK] using hwf) hrd g
          (by simpa [collectDocs] using hg)
      rw [← hf', ← hm]
      rw [decide_eq_true_eq]
      have hmin : sortByPos ((collectDocs (⟨decls', f.floating⟩ : File) ++ f.floating) ++ [injGroup]) =
          injGroup :: sortByPos (collectDocs (⟨decls', f.floating⟩ : File)) := by
        rw [hfl, List.append_nil]
        exact sortByPos_append_min injGroup _ hfresh
      rw [hmin, hbase]
      have hfc : fileComments (⟨decls', f.floating⟩ : File) =
          sortByPos (collectDocs (⟨decls', f.floating⟩ : File)) := by
        rw [fileComments, hfl, List.append_nil]
      rw [hfc]
      simp only [concatTexts, List.map_cons, List.flatten_cons, List.map_nil,
        List.flatten_nil, List.append_nil]
      constructor
      · intro h1 h2
        apply h1
        rw [h2, List.append_nil]
      · intro h1 h2
        apply h1
        exact List.append_cancel_left (h2.trans (List.append_nil _).symm)
    · rw [if_neg hbase, if_neg hbase] at hrun
      simp only [Option.some.injEq, Prod.mk.injEq] at hrun
      obtain ⟨hf', hm⟩ := hrun
      rw [← hf', ← hm]
      rw [decide_eq_true_eq]
      simp [fileComments]

/-- Splitting a newline-free string yields the string itself. -/
theorem splitNLAux_no_nl :
    ∀ (l cur : GoString), (∀ c ∈ l, c ≠ '\n') → splitNLAux l cur = [cur.reverse ++ l] := by
  intro l
  induction l with
  | nil => intro cur _; simp [splitNLAux]
  | cons c tl ih =>
    intro cur h
    rw [splitNLAux, if_neg (h c (by simp))]
    rw [ih (c :: cur) (fun x hx => h x (by simp [hx]))]
    simp

/-- `strings.Split` on a newline-free string. -/
theorem splitNL_no_nl (l : GoString) (h : ∀ c ∈ l, c ≠ '\n') : splitNL l = [l] := by
  simpa [splitNL] using splitNLAux_no_nl l [] h

/-- The text of a freshly synthesized comment (default template): the name
followed by ` ...` and the final newline added by `Text()`. -/
theorem groupText_synth (p : Int) (nm : GoString) (hne : nm ≠ [])
    (hns : ∀ c ∈ nm, isSpaceGo c = false) :
    groupText ⟨[⟨p, sprintf1 (commentBase ++ defaultTemplate) nm⟩]⟩ =
      nm ++ [' ', '.', '.', '.', '\n'] := by
  obtain ⟨c0, tl0, rfl⟩ : ∃ c tl, nm = c :: tl := by
    cases nm with
    | nil => exact absurd rfl hne
    | cons c tl => exact ⟨c, tl, rfl⟩
  have hnl : ∀ c ∈ (c0 :: tl0) ++ defaultTemplate, c ≠ '\n' := by
    intro c hc habs
    rcases List.mem_append.mp hc with hc | hc
    · have h5 := hns c hc
      rw [habs] at h5
      simp [isSpaceGo] at h5
    · subst habs
      simp [defaultTemplate] at hc
  have hnl2 : ∀ c ∈ c0 :: (tl0 ++ defaultTemplate), c ≠ '\n' := by
    simpa using hnl
  have hstrip : stripTrailingWS ((c0 :: tl0) ++ defaultTemplate) = (c0 :: tl0) ++ defaultTemplate := by
    rw [stripTrailingWS, defaultTemplate]
    rw [show (c0 :: tl0) ++ [' ', '.', '.', '.'] = ((c0 :: tl0) ++ [' ', '.', '.']) ++ ['.'] by simp]
    rw [List.reverse_append]
    rw [List.reverse_singleton, List.singleton_append, List.dropWhile_cons]
    rw [if_neg (by simp [isWSByte])]
    simp
  have hstrip2 : stripTrailingWS (c0 :: (tl0 ++ defaultTemplate)) = c0 :: (tl0 ++ defaultTemplate) := by
    simpa using hstrip
  have hcc : commentContrib (sprintf1 (commentBase ++ defaultTemplate) (c0 :: tl0)) =
      [c0 :: (tl0 ++ defaultTemplate)] := by
    rw [sprintf1_base, commentContrib]
    simp [splitNL_no_nl _ hnl2, hstrip2]
  have hcol : collapseAux [] [c0 :: (tl0 ++ defaultTemplate)] = [c0 :: (tl0 ++ defaultTemplate)] := by
    simp [collapseAux]
  rw [groupText]
  simp only [List.map_cons, List.map_nil, List.flatten_cons, List.flatten_nil,
    List.append_nil, hcc, hcol]
  rw [if_pos (by simp)]
  simp [joinNL, List.intersperse, defaultTemplate]

/-- Trimming the text of a freshly synthesized comment strips only the final
newline, leaving the non-blank template suffix in place. -/
theorem trimGo_synth (nm : GoString) (hne : nm ≠ [])
    (hns : ∀ c ∈ nm, isSpaceGo c = false) :
    trimGo (nm ++ [' ', '.', '.', '.', '\n']) = nm ++ [' ', '.', '.', '.'] := by
  obtain ⟨c, tl, rfl⟩ : ∃ c tl, nm = c :: tl := by
    cases nm with
    | nil => exact absurd rfl hne
    | cons c tl => exact ⟨c, tl, rfl⟩
  have hc : isSpaceGo c = false := hns c (by simp)
  rw [trimGo]
  rw [List.cons_append, List.dropWhile_cons, if_neg (by simp [hc])]
  rw [show (c :: (tl ++ [' ', '.', '.', '.', '\n'])).reverse =
    '\n' :: '.' :: '.' :: '.' :: ' ' :: (tl.reverse ++ [c]) by simp]
  rw [List.dropWhile_cons, if_pos (by simp [isSpaceGo])]
  rw [List.dropWhile_cons, if_neg (by simp [isSpaceGo])]
  simp

/-- Claim C8: an exported function with a missing or trivial doc comment gets
its doc replaced by a freshly synthesized comment (template filled with the
name), anchored just before the declaration or at the old doc's position; and
for a single-function file with the default template the pass reports
`modified = true`. -/
theorem c8_trivial_doc_replacement :
    (∀ (ct : GoString) (G : Globals) (fd : FuncDecl),
      fd.doc = none ∨ trimGo (docText fd.doc) = fd.name →
      addFuncDeclComment ct G fd = { fd with doc := some ⟨[⟨(match fd.doc with | none => fd.pos - 1 | some d => groupPos d), sprintf1 ct fd.name⟩]⟩ }) ∧
    (∀ (G : Globals) (n : Nat) (nm : GoString) (doc : Option CommentGroup) (pos : Int),
      isExportedS nm = true → nm ≠ [] → (∀ c ∈ nm, isSpaceGo c = false) → 1 ≤ pos →
      (doc = none ∨ trimGo (docText doc) = nm) →
      parseFile G defaultTemplate ⟨[Decl.func ⟨n, nm, doc, pos, []⟩], []⟩ =
        some (⟨[Decl.func ⟨n, nm,
          some ⟨[⟨(match doc with | none => pos - 1 | some d => groupPos d),
            sprintf1 (commentBase ++ defaultTemplate) nm⟩]⟩, pos, []⟩], []⟩, true)) := by
  constructor
  · intro ct G fd h
    rw [addFuncDeclComment, if_pos h]
  · intro G n nm doc pos hex hne hns hpos hdoc
    cases doc with
    | none =>
      have hrd : runDecls (commentBase ++ defaultTemplate) G [] [Decl.func ⟨n, nm, none, pos, []⟩] =
          some ([Decl.func ⟨n, nm, some ⟨[⟨pos - 1, sprintf1 (commentBase ++ defaultTemplate) nm⟩]⟩, pos, []⟩], []) := by
        simp [runDecls, runBody, processFuncNode, addFuncDeclComment, hex]
      have hbase : fileComments (⟨[Decl.func ⟨n, nm, none, pos, []⟩], []⟩ : File) = [] := by
        simp [fileComments, collectDocs, declDocs, genDocs, sortByPos]
      have hgt : groupText ⟨[⟨pos - 1, sprintf1 (commentBase ++ defaultTemplate) nm⟩]⟩ =
          nm ++ [' ', '.', '.', '.', '\n'] := groupText_synth _ nm hne hns
      have hins : sortByPos ([(⟨[⟨pos - 1, sprintf1 (commentBase ++ defaultTemplate) nm⟩]⟩ : CommentGroup)] ++ [injGroup]) =
          injGroup :: [⟨[⟨pos - 1, sprintf1 (commentBase ++ defaultTemplate) nm⟩]⟩] := by
        rw [sortByPos_append_min]
        · rfl
        · intro g hg
          simp only [List.mem_singleton] at hg
          subst hg
          simp only [groupPos, injGroup]
          omega
      simp only [parseFile]
      dsimp only
      rw [hbase, hrd]
      rw [if_pos (rfl : ([] : List CommentGroup) = [])]
      dsimp only
      simp only [Option.some.injEq, Prod.mk.injEq]
      refine ⟨by trivial, ?_⟩
      rw [decide_eq_true_eq]
      have hcoll2 : collectDocs (⟨[Decl.func ⟨n, nm, some ⟨[⟨pos - 1, sprintf1 (commentBase ++ defaultTemplate) nm⟩]⟩, pos, []⟩], []⟩ : File) =
          [⟨[⟨pos - 1, sprintf1 (commentBase ++ defaultTemplate) nm⟩]⟩] := by
        simp [collectDocs, declDocs, genDocs]
      rw [hcoll2]
      simp only [List.append_nil]
      rw [hins]
      simp only [concatTexts, List.map_cons, List.map_nil, List.flatten_cons,
        List.flatten_nil, List.append_nil]
      intro heq
      have h2 := List.append_cancel_left (heq.trans (List.append_nil _).symm)
      rw [hgt] at h2
      simp at h2
    | some cg =>
      have htriv : trimGo (groupText cg) = nm := by
        rcases hdoc with h | h
        · simp at h
        · simpa [docText] using h
      have hrd : runDecls (commentBase ++ defaultTemplate) G [] [Decl.func ⟨n, nm, some cg, pos, []⟩] =
          some ([Decl.func ⟨n, nm, some ⟨[⟨groupPos cg, sprintf1 (commentBase ++ defaultTemplate) nm⟩]⟩, pos, []⟩], []) := by
        simp [runDecls, runBody, processFuncNode, addFuncDeclComment, hex, docText, htriv]
      have hbase : fileComments (⟨[Decl.func ⟨n, nm, some cg, pos, []⟩], []⟩ : File) = [cg] := by
        simp [fileComments, collectDocs, declDocs, genDocs, sortByPos, insertByPos]
      have hgt : groupText ⟨[⟨groupPos cg, sprintf1 (commentBase ++ defaultTemplate) nm⟩]⟩ =
          nm ++ [' ', '.', '.', '.', '\n'] := groupText_synth _ nm hne hns
      simp only [parseFile]
      dsimp only
      rw [hbase, hrd]
      dsimp only
      rw [if_neg (by simp), if_neg (by simp)]
      simp only [Option.some.injEq, Prod.mk.injEq]
      refine ⟨by trivial, ?_⟩
      rw [decide_eq_true_eq]
      have hcoll2 : collectDocs (⟨[Decl.func ⟨n, nm, some ⟨[⟨groupPos cg, sprintf1 (commentBase ++ defaultTemplate) nm⟩]⟩, pos, []⟩], []⟩ : File) =
          [⟨[⟨groupPos cg, sprintf1 (commentBase ++ defaultTemplate) nm⟩]⟩] := by
        simp [collectDocs, declDocs, genDocs]
      rw [hcoll2]
      simp only [List.append_nil, sortByPos, insertByPos, concatTexts, List.map_cons,
        List.map_nil, List.flatten_cons, List.flatten_nil, List.append_nil]
      intro heq
      rw [hgt] at heq
      have h2 := congrArg trimGo heq
      rw [trimGo_synth nm hne hns, htriv] at h2
      have hlen := congrArg List.length h2
      simp [List.length_append] at hlen

/-- Witness for claim C8 at the spec's `DoThing` example. -/
theorem c8_trivial_doc_replacement_witness :
    parseFile exGlobals defaultTemplate
        ⟨[Decl.func ⟨1, "DoThing".data, some ⟨[⟨5, "// DoThing".data⟩]⟩, 40, []⟩], []⟩ =
      some (⟨[Decl.func ⟨1, "DoThing".data, some ⟨[⟨5, "// DoThing ...".data⟩]⟩, 40, []⟩], []⟩, true) := by
  have h := c8_trivial_doc_replacement.2 exGlobals 1 ("DoThing".data)
    (some ⟨[⟨5, "// DoThing".data⟩]⟩) 40 (by decide) (by decide) (by decide) (by decide)
    (Or.inr (by decide))
  exact h.trans (by decide)

/-- Witness for claim C5 at a concrete input. -/
theorem c5_modified_iff_witness :
    (true = true) ↔
      concatTexts (fileComments ⟨[Decl.func ⟨1, "Do".data, some ⟨[⟨5, "// Do ...".data⟩]⟩, 40, []⟩], []⟩) ≠
        concatTexts (fileComments ⟨[Decl.func ⟨1, "Do".data, some ⟨[⟨5, "// Do".data⟩]⟩, 40, []⟩], []⟩) := by
  exact c5_modified_iff exGlobals defaultTemplate
    ⟨[Decl.func ⟨1, "Do".data, some ⟨[⟨5, "// Do".data⟩]⟩, 40, []⟩], []⟩
    ⟨[Decl.func ⟨1, "Do".data, some ⟨[⟨5, "// Do ...".data⟩]⟩, 40, []⟩], []⟩
    true (by decide) (by decide)

/-- Entries whose first name is unexported pass through the per-entry loop
unchanged. -/
theorem perEntry_unexported_preserved (ct : GoString) (G : Globals) :
    ∀ (specs specs' : List SpecNode) (i : Nat) (vs : ValueSpec) (nm : GoString),
      perEntry ct G specs = some specs' →
      specs.get? i = some (SpecNode.value vs) → vs.names.head? = some nm →
      isExportedS nm = false → specs'.get? i = some (SpecNode.value vs) := by
  intro specs
  induction specs with
  | nil =>
    intro specs' i vs nm hrun hget
    simp at hget
  | cons s tl ih =>
    intro specs' i vs nm hrun hget hnm hex
    cases s with
    | tspec ts => simp [perEntry] at hrun
    | value vs0 =>
      rw [perEntry] at hrun
      cases hn : vs0.names.head? with
      | none => rw [hn] at hrun; simp at hrun
      | some nm0 =>
        rw [hn] at hrun
        cases htl : perEntry ct G tl with
        | none => rw [htl] at hrun; simp at hrun
        | some tl' =>
          rw [htl] at hrun
          simp only [Option.some.injEq] at hrun
          subst hrun
          cases i with
          | zero =>
            simp only [List.get?] at hget
            have hvs : vs0 = vs := by
              simpa using hget
            subst hvs
            rw [hnm] at hn
            have : nm0 = nm := by simpa using hn.symm
            subst this
            simp [hex]
          | succ n =>
            simp only [List.get?] at hget ⊢
            exact ih tl' n vs nm htl hget hnm hex

/-- Claim C3: unexported declarations are never touched.  An unexported
function node is returned unchanged; a var/const group whose first entry name
is unexported is returned unchanged by the group path; a type group whose
first name is unexported is returned unchanged; and every unexported entry of
a parenthesized group passes through the per-entry loop with its doc comment
untouched. -/
theorem c3_unexported_untouched (ct : GoString) (G : Globals) (sk : List Nat) :
    (∀ fd : FuncDecl, isExportedS fd.name = false → processFuncNode ct G sk fd = fd) ∧
    (∀ (gd : GenDecl) (vs : ValueSpec) (nm : GoString),
      (gd.tok = GoTok.tok_const ∨ gd.tok = GoTok.tok_var) →
      ¬ (gd.paren = true ∧ G.parenComment = true) →
      gd.specs.head? = some (SpecNode.value vs) → vs.names.head? = some nm →
      isExportedS nm = false → visitGen ct G sk gd = some gd) ∧
    (∀ (gd : GenDecl) (ts : TypeSpec),
      gd.tok = GoTok.tok_type → gd.specs.head? = some (SpecNode.tspec ts) →
      isExportedS ts.name = false → visitGen ct G sk gd = some gd) ∧
    (∀ (specs specs' : List SpecNode) (i : Nat) (vs : ValueSpec) (nm : GoString),
      perEntry ct G specs = some specs' →
      specs.get? i = some (SpecNode.value vs) → vs.names.head? = some nm →
      isExportedS nm = false → specs'.get? i = some (SpecNode.value vs)) := by
  refine ⟨?_, ?_, ?_, perEntry_unexported_preserved ct G⟩
  · intro fd hex
    simp [processFuncNode, hex]
  · intro gd vs nm htok hnp hhead hnm hex
    rcases htok with h | h <;>
    · simp only [visitGen, h]
      rw [if_neg hnp]
      cases hspecs : gd.specs with
      | nil => rw [hspecs] at hhead; simp at hhead
      | cons s tl =>
        have hs : s = SpecNode.value vs := by
          rw [hspecs] at hhead; simpa using hhead
        subst hs
        by_cases hmem : gd.id ∈ sk
        · simp [hspecs, hmem]
        · simp [hspecs, hmem, hnm, hex]
  · intro gd ts htok hhead hex
    simp only [visitGen, htok]
    cases hspecs : gd.specs with
    | nil => rw [hspecs] at hhead; simp at hhead
    | cons s tl =>
      have hs : s = SpecNode.tspec ts := by
        rw [hspecs] at hhead; simpa using hhead
      subst hs
      simp [hspecs, hex]

/-- Witness for claim C3 at concrete unexported declarations. -/
theorem c3_unexported_untouched_witness :
    processFuncNode (commentBase ++ defaultTemplate) exGlobals []
        ⟨1, "foo".data, some ⟨[⟨5, "// x".data⟩]⟩, 20, []⟩ =
      ⟨1, "foo".data, some ⟨[⟨5, "// x".data⟩]⟩, 20, []⟩ ∧
    visitGen (commentBase ++ defaultTemplate) exGlobals []
        ⟨1, GoTok.tok_var, false, [SpecNode.value ⟨2, ["a".data], none, 30⟩], none, 20⟩ =
      some ⟨1, GoTok.tok_var, false, [SpecNode.value ⟨2, ["a".data], none, 30⟩], none, 20⟩ ∧
    visitGen (commentBase ++ defaultTemplate) exGlobals []
        ⟨1, GoTok.tok_type, false, [SpecNode.tspec ⟨2, "t".data, none, 30⟩], none, 20⟩ =
      some ⟨1, GoTok.tok_type, false, [SpecNode.tspec ⟨2, "t".data, none, 30⟩], none, 20⟩ ∧
    ([SpecNode.value ⟨2, ["a".data], none, 30⟩].get? 0 = some (SpecNode.value ⟨2, ["a".data], none, 30⟩)) := by
  refine ⟨?_, ?_, ?_, ?_⟩
  · exact (c3_unexported_untouched (commentBase ++ defaultTemplate) exGlobals []).1
      ⟨1, "foo".data, some ⟨[⟨5, "// x".data⟩]⟩, 20, []⟩ (by decide)
  · exact (c3_unexported_untouched (commentBase ++ defaultTemplate) exGlobals []).2.1
      ⟨1, GoTok.tok_var, false, [SpecNode.value ⟨2, ["a".data], none, 30⟩], none, 20⟩
      ⟨2, ["a".data], none, 30⟩ ("a".data) (Or.inr rfl) (by decide) rfl rfl (by decide)
  · exact (c3_unexported_untouched (commentBase ++ defaultTemplate) exGlobals []).2.2.1
      ⟨1, GoTok.tok_type, false, [SpecNode.tspec ⟨2, "t".data, none, 30⟩], none, 20⟩
      ⟨2, "t".data, none, 30⟩ rfl rfl (by decide)
  · exact (c3_unexported_untouched (commentBase ++ defaultTemplate) exGlobalsParen []).2.2.2
      [SpecNode.value ⟨2, ["a".data], none, 30⟩] [SpecNode.value ⟨2, ["a".data], none, 30⟩]
      0 ⟨2, ["a".data], none, 30⟩ ("a".data) (by decide) rfl rfl (by decide)

/-- For a parenthesized group whose entries are all value specs with a first
name and no doc, the per-entry loop synthesizes exactly the comments described
by `c9ExpectedEntry`. -/
theorem perEntry_fresh (ct : GoString) (G : Globals) :
    ∀ specs : List SpecNode,
      (∀ s ∈ specs, ∃ vs : ValueSpec, s = SpecNode.value vs ∧ vs.doc = none ∧ vs.names ≠ []) →
      perEntry ct G specs = some (specs.map (c9ExpectedEntry ct)) := by
  intro specs
  induction specs with
  | nil => intro _; simp [perEntry]
  | cons s tl ih =>
    intro h
    obtain ⟨vs, hs, hdoc, hnames⟩ := h s (by simp)
    subst hs
    cases hn : vs.names with
    | nil => exact absurd hn hnames
    | cons n0 ns =>
      rw [perEntry, hn]
      simp only [List.head?]
      rw [ih (fun s2 hs2 => h s2 (by simp [hs2]))]
      by_cases hex : isExportedS n0
      · simp [c9ExpectedEntry, hn, hex, addParenValueSpecComment, hdoc]
      · simp [c9ExpectedEntry, hn, hex]

/-- Claim C9: for a parenthesized var/const group with no existing docs, with
`perEntryComment = true` every exported entry gets its own comment from the
indented template variant; with the flag `false` exactly one comment is
synthesized for the group, keyed by the first entry's name. -/
theorem c9_group_vs_per_entry (ct : GoString) (sk : List Nat) :
    (∀ (G : Globals) (gd : GenDecl),
      G.parenComment = true → (gd.tok = GoTok.tok_const ∨ gd.tok = GoTok.tok_var) →
      gd.paren = true →
      (∀ s ∈ gd.specs, ∃ vs : ValueSpec, s = SpecNode.value vs ∧ vs.doc = none ∧ vs.names ≠ []) →
      visitGen ct G sk gd = some { gd with specs := gd.specs.map (c9ExpectedEntry ct) }) ∧
    (∀ (G : Globals) (gd : GenDecl) (vs : ValueSpec) (nm : GoString),
      G.parenComment = false → (gd.tok = GoTok.tok_const ∨ gd.tok = GoTok.tok_var) →
      gd.paren = true → gd.id ∉ sk → gd.doc = none →
      gd.specs.head? = some (SpecNode.value vs) → vs.names.head? = some nm →
      isExportedS nm = true →
      visitGen ct G sk gd = some { gd with doc := some ⟨[⟨gd.pos - 1, sprintf1 ct nm⟩]⟩ }) := by
  constructor
  · intro G gd hflag htok hparen hspecs
    rcases htok with h | h <;>
    · simp only [visitGen, h]
      rw [if_pos ⟨hparen, hflag⟩, perEntry_fresh ct G gd.specs hspecs]
  · intro G gd vs nm hflag htok hparen hmem hdoc hhead hnm hex
    rcases htok with h | h <;>
    · simp only [visitGen, h]
      rw [if_neg (by simp [hflag])]
      cases hspecs : gd.specs with
      | nil => rw [hspecs] at hhead; simp at hhead
      | cons s tl =>
        have hs : s = SpecNode.value vs := by
          rw [hspecs] at hhead; simpa using hhead
        subst hs
        simp [hspecs, hmem, hnm, hex, addValueSpecComment, hdoc, h]

/-- Witness for claim C9 at the spec's `var ( A = 1; B = 2 )` example. -/
theorem c9_group_vs_per_entry_witness :
    visitGen (commentBase ++ defaultTemplate) exGlobalsParen []
        ⟨1, GoTok.tok_var, true, [SpecNode.value ⟨2, ["A".data], none, 30⟩, SpecNode.value ⟨3, ["B".data], none, 50⟩], none, 20⟩ =
      some ⟨1, GoTok.tok_var, true,
        [SpecNode.value ⟨2, ["A".data], some ⟨[⟨29, "\t// A ...".data⟩]⟩, 30⟩,
         SpecNode.value ⟨3, ["B".data], some ⟨[⟨49, "\t// B ...".data⟩]⟩, 50⟩], none, 20⟩ ∧
    visitGen (commentBase ++ defaultTemplate) exGlobals []
        ⟨1, GoTok.tok_var, true, [SpecNode.value ⟨2, ["A".data], none, 30⟩, SpecNode.value ⟨3, ["B".data], none, 50⟩], none, 20⟩ =
      some ⟨1, GoTok.tok_var, true,
        [SpecNode.value ⟨2, ["A".data], none, 30⟩, SpecNode.value ⟨3, ["B".data], none, 50⟩],
        some ⟨[⟨19, "// A ...".data⟩]⟩, 20⟩ := by
  constructor
  · have h := (c9_group_vs_per_entry (commentBase ++ defaultTemplate) []).1 exGlobalsParen
      ⟨1, GoTok.tok_var, true, [SpecNode.value ⟨2, ["A".data], none, 30⟩, SpecNode.value ⟨3, ["B".data], none, 50⟩], none, 20⟩
      rfl (Or.inr rfl) rfl
      (by
        intro s hs
        simp only [List.mem_cons, List.not_mem_nil, or_false] at hs
        rcases hs with h | h
        · exact ⟨⟨2, ["A".data], none, 30⟩, h, rfl, by decide⟩
        · exact ⟨⟨3, ["B".data], none, 50⟩, h, rfl, by decide⟩)
    exact h.trans (by decide)
  · have h := (c9_group_vs_per_entry (commentBase ++ defaultTemplate) []).2 exGlobals
      ⟨1, GoTok.tok_var, true, [SpecNode.value ⟨2, ["A".data], none, 30⟩, SpecNode.value ⟨3, ["B".data], none, 50⟩], none, 20⟩
      ⟨2, ["A".data], none, 30⟩ ("A".data) rfl (Or.inr rfl) rfl (by decide) rfl rfl rfl (by decide)
    exact h.trans (by decide)

/-- Witness for claim C10 at a concrete input. -/
theorem c10_modify_ignores_template_argument_witness :
    addFuncDeclComment (commentBase ++ (" xxx".data)) exGlobals
        ⟨1, "Foo".data, some ⟨[⟨10, "// does stuff".data⟩]⟩, 20, []⟩ =
      addFuncDeclComment (commentBase ++ (" yyy".data)) exGlobals
        ⟨1, "Foo".data, some ⟨[⟨10, "// does stuff".data⟩]⟩, 20, []⟩ := by
  exact c10_modify_ignores_template_argument.1 exGlobals (" xxx".data) (" yyy".data)
    ⟨1, "Foo".data, some ⟨[⟨10, "// does stuff".data⟩]⟩, 20, []⟩
    ⟨[⟨10, "// does stuff".data⟩]⟩ rfl (by decide) (by decide) (by decide)

end Gocmt
